import Mathlib

/-
  Verification of the graph-coloring repository (graph.py / graph_v3.py).

  The program keeps an undirected `networkx` graph.  We embed it as a record
  of the vertex list (in insertion order, as `graph.nodes` iterates) and the
  list of inserted edges (as `graph.edges` iterates).  Neighbor lists are
  derived from the edge list, so adjacency is symmetric by construction,
  exactly as in `networkx`.
-/

/-- The graph data the program manipulates: `nodes` is the vertex list in
insertion order (the iteration order of `graph.nodes`), `edges` the list of
recorded edges (the iteration order of `graph.edges`). -/
structure Graph where
  nodes : List Nat
  edges : List (Nat × Nat)
deriving DecidableEq, Repr

/-- Neighbors of `v` induced by an edge list: for each edge touching `v`,
the other endpoint (embeds `graph.neighbors(v)` of networkx). -/
def nbrsOf (E : List (Nat × Nat)) (v : Nat) : List Nat :=
  E.filterMap (fun e => if e.1 = v then some e.2 else if e.2 = v then some e.1 else none)

/-- Embeds `graph.neighbors(v)`. -/
def Graph.nbrs (G : Graph) (v : Nat) : List Nat := nbrsOf G.edges v

/-- Embeds `graph.degree[v]`. -/
def Graph.degree (G : Graph) (v : Nat) : Nat := (G.nbrs v).length

/-- Well-formedness facts guaranteed by networkx: vertices are listed once,
every edge endpoint is a listed vertex, and (the self-loop-free setting the
spec works in) no edge joins a vertex to itself. -/
def Graph.WF (G : Graph) : Prop :=
  G.nodes.Nodup ∧ ∀ e ∈ G.edges, e.1 ∈ G.nodes ∧ e.2 ∈ G.nodes ∧ e.1 ≠ e.2

instance (G : Graph) : Decidable G.WF := by
  unfold Graph.WF; infer_instance

/-- The `color_map` Python dict: an insertion-ordered association list. -/
abbrev ColorMap := List (Nat × Nat)

/-- Dict lookup `color_map.get(v)`. -/
def findC : ColorMap → Nat → Option Nat
  | [], _ => none
  | (w, c) :: rest, v => if w = v then some c else findC rest v

/-- The key list of the dict. -/
def keysOf (cm : ColorMap) : List Nat := cm.map Prod.fst

/-- The linear probe `while color in neighbor_colors: color += 1`,
with explicit fuel. -/
def probe (used : List Nat) : Nat → Nat → Nat
  | 0, c => c
  | fuel + 1, c => if c ∈ used then probe used fuel (c + 1) else c

/-- Smallest positive color not in `used` (the probe starting at 1; fuel
`used.length + 1` always suffices, see `firstFree_not_mem`). -/
def firstFree (used : List Nat) : Nat := probe used (used.length + 1) 1

/-- Embeds `\x7bcolor_map[n] for n in graph.neighbors(v) if n in color_map\x7d`
(as a list; only membership in it is ever used). -/
def nbrColors (G : Graph) (cm : ColorMap) (v : Nat) : List Nat :=
  (G.nbrs v).filterMap (fun u => findC cm u)

/-- One iteration of `greedy_coloring`'s loop body. -/
def greedyStep (G : Graph) (cm : ColorMap) (v : Nat) : ColorMap :=
  cm ++ [(v, firstFree (nbrColors G cm v))]

/-- Embeds `greedy_coloring(graph)` from graph.py lines 84-95. -/
def greedy_coloring (G : Graph) : ColorMap := G.nodes.foldl (greedyStep G) []

/-- Stable descending-degree insertion used by `sortedNodes`. -/
def insertDesc (G : Graph) (x : Nat) : List Nat → List Nat
  | [] => [x]
  | y :: ys => if G.degree y ≤ G.degree x then x :: y :: ys else y :: insertDesc G x ys

/-- Stable sort by descending degree (Python's stable
`sorted(graph.nodes, key=degree, reverse=True)`). -/
def sortNodesDesc (G : Graph) : List Nat → List Nat
  | [] => []
  | x :: xs => insertDesc G x (sortNodesDesc G xs)

/-- Embeds `sorted(graph.nodes, key=lambda x: graph.degree[x], reverse=True)`. -/
def sortedNodes (G : Graph) : List Nat := sortNodesDesc G G.nodes

/-- The Welsh-Powell extension pass (graph.py lines 79-81): scan the list
`scan`; each still-uncolored vertex none of whose neighbors holds color `c`
receives color `c`. -/
def wpExtend (G : Graph) (c : Nat) : List Nat → ColorMap → ColorMap
  | [], cm => cm
  | v :: rest, cm =>
    if findC cm v = none ∧ ∀ n ∈ G.nbrs v, findC cm n ≠ some c then
      wpExtend G c rest (cm ++ [(v, c)])
    else
      wpExtend G c rest cm

/-- Opening a new color for `v` in `welsh_powell`: assign `cc + 1` to `v`,
then run the extension pass over `graph.nodes` (the source scans the graph's
native node order here, lines 79-81). -/
def wpOpen (G : Graph) (cc : Nat) (v : Nat) (cm : ColorMap) : ColorMap :=
  wpExtend G (cc + 1) G.nodes (cm ++ [(v, cc + 1)])

/-- The outer loop of `welsh_powell` over the sorted node list. -/
def wpLoop (G : Graph) : List Nat → Nat → ColorMap → ColorMap
  | [], _, cm => cm
  | v :: rest, cc, cm =>
    if findC cm v = none then
      wpLoop G rest (cc + 1) (wpOpen G cc v cm)
    else
      wpLoop G rest cc cm

/-- Embeds `welsh_powell(graph)` from graph.py lines 67-82. -/
def welsh_powell (G : Graph) : ColorMap := wpLoop G (sortedNodes G) 0 []

/-- Modelled from the spec (§4.2): Welsh-Powell with the extension-pass scan
order given as the explicit parameter `scan`; the outer loop is the source's
outer loop. -/
def wpLoopScan (G : Graph) (scan : List Nat) : List Nat → Nat → ColorMap → ColorMap
  | [], _, cm => cm
  | v :: rest, cc, cm =>
    if findC cm v = none then
      wpLoopScan G scan rest (cc + 1) (wpExtend G (cc + 1) scan (cm ++ [(v, cc + 1)]))
    else
      wpLoopScan G scan rest cc cm

/-- Modelled from the spec (§4.2, claim C3's reading): Welsh-Powell whose
extension pass scans the vertices in the descending-degree sort order. -/
def welshPowellSortScan (G : Graph) : ColorMap :=
  wpLoopScan G (sortedNodes G) (sortedNodes G) 0 []

/-- Strict lexicographic order on (saturation, degree) pairs, the order
Python's tuple comparison gives `max(..., key=lambda x: (sat, deg))`. -/
def lexLt (p q : Nat × Nat) : Prop := p.1 < q.1 ∨ (p.1 = q.1 ∧ p.2 < q.2)

instance (p q : Nat × Nat) : Decidable (lexLt p q) := by
  unfold lexLt; infer_instance

/-- Python's `max` scan: start from the first element, replace the current
best exactly when a later element's key is strictly greater. -/
def pickBest (key : Nat → Nat × Nat) (v : Nat) (l : List Nat) : Nat :=
  l.foldl (fun b u => if lexLt (key b) (key u) then u else b) v

/-- Embeds `max(iterable, key=...)`, returning `none` on an empty iterable. -/
def pickMax (key : Nat → Nat × Nat) : List Nat → Option Nat
  | [] => none
  | v :: rest => some (pickBest key v rest)

/-- The mutable state of `dsatur`: the `saturation` table and `color_map`. -/
structure DState where
  sat : Nat → Nat
  cm : ColorMap

/-- Embeds `(n for n in graph.nodes if n not in color_map)`. -/
def uncoloredIn (G : Graph) (cm : ColorMap) : List Nat :=
  G.nodes.filter (fun n => (findC cm n).isNone)

/-- The vertex `dsatur` selects: the first uncolored vertex (in node order)
whose (saturation, degree) key is lexicographically maximal. -/
def dsaturChoose (G : Graph) (s : DState) : Option Nat :=
  pickMax (fun v => (s.sat v, G.degree v)) (uncoloredIn G s.cm)

/-- Embeds `saturation[w] += 1`. -/
def bumpSat (f : Nat → Nat) (w : Nat) : Nat → Nat :=
  fun x => if x = w then f w + 1 else f x

/-- The saturation update of `dsatur` (graph.py lines 112-115): after `v`
is colored, bump the saturation of every still-uncolored neighbor of `v`. -/
def dsaturUpdate (G : Graph) (v : Nat) (cm : ColorMap) (f : Nat → Nat) : Nat → Nat :=
  (G.nbrs v).foldl (fun g w => if findC cm w = none then bumpSat g w else g) f

/-- One iteration of `dsatur`'s while-loop; `none` when every vertex is
colored (the loop guard fails). -/
def dsaturStep (G : Graph) (s : DState) : Option DState :=
  match dsaturChoose G s with
  | none => none
  | some v =>
    let c := firstFree (nbrColors G s.cm v)
    let cm2 := s.cm ++ [(v, c)]
    some ⟨dsaturUpdate G v cm2 s.sat, cm2⟩

/-- The state of `dsatur` after `k` iterations of its while-loop. -/
def dsaturRun (G : Graph) : Nat → DState
  | 0 => ⟨fun _ => 0, []⟩
  | k + 1 =>
    match dsaturStep G (dsaturRun G k) with
    | none => dsaturRun G k
    | some s => s

/-- Embeds `dsatur(graph)` from graph.py lines 97-116: the loop colors one vertex
per iteration, so `graph.number_of_nodes()` iterations reach the state in
which the guard `len(color_map) < number_of_nodes` fails. -/
def dsatur (G : Graph) : ColorMap := (dsaturRun G G.nodes.length).cm

/-- Number of distinct colors among the colored neighbors of `v`. -/
def distinctNbrColors (G : Graph) (cm : ColorMap) (v : Nat) : Nat :=
  (nbrColors G cm v).dedup.length

/-- Number of already-colored neighbors of `v` (counted as the program's
neighbor iteration does). -/
def coloredNbrCount (G : Graph) (cm : ColorMap) (v : Nat) : Nat :=
  ((G.nbrs v).filter (fun w => (findC cm w).isSome)).length

/-- Largest degree in the graph. -/
def maxDegree (G : Graph) : Nat := (G.nodes.map G.degree).foldl max 0

/-- A color map is a proper (partial) coloring: adjacent vertices never hold
the same color. -/
def Proper (G : Graph) (cm : ColorMap) : Prop :=
  ∀ u v c, u ∈ G.nbrs v → findC cm u = some c → findC cm v ≠ some c

/-- Every assigned color is at most the degree of its vertex plus one. -/
def ColorsLe (G : Graph) (cm : ColorMap) : Prop :=
  ∀ v c, findC cm v = some c → c ≤ G.degree v + 1

/- ---------------------------------------------------------------------
   The file I/O pair (graph.py lines 25-58), modelled on file contents as
   a list of text lines.
--------------------------------------------------------------------- -/

/-- Embeds `nx.Graph.add_node`: append the vertex if absent. -/
def addNode (G : Graph) (v : Nat) : Graph :=
  if v ∈ G.nodes then G else ⟨G.nodes ++ [v], G.edges⟩

/-- Embeds `nx.Graph.add_edge`: create missing endpoints, then record the edge if
it is not already present (in either orientation). -/
def add_edge (G : Graph) (u v : Nat) : Graph :=
  let G1 := addNode (addNode G u) v
  if (u, v) ∈ G1.edges ∨ (v, u) ∈ G1.edges then G1
  else ⟨G1.nodes, G1.edges ++ [(u, v)]⟩

/-- A line of the text file, embedded as its character list. -/
abbrev Line := List Char

/-- Embeds `line.strip()` for blanks: drop leading and trailing spaces. -/
def trimLine (l : Line) : Line :=
  ((l.dropWhile (fun ch => ch = ' ')).reverse.dropWhile (fun ch => ch = ' ')).reverse

/-- Embeds `line.startswith(c)` for a one-character marker. -/
def startsWith1 (l : Line) (c : Char) : Bool :=
  match l with
  | [] => false
  | ch :: _ => ch = c

/-- Worker for `splitTok`, carrying the (reversed) token being read. -/
def splitTokAux : Line → Line → List Line
  | [], acc => if acc = [] then [] else [acc.reverse]
  | ch :: rest, acc =>
    if ch = ' ' then
      if acc = [] then splitTokAux rest []
      else acc.reverse :: splitTokAux rest []
    else splitTokAux rest (ch :: acc)

/-- Python's `str.split()`: cut on runs of blanks, never an empty token. -/
def splitTok (l : Line) : List Line := splitTokAux l []

/-- Embeds `int(token)` for a token of decimal digits. -/
def digitVal? (ch : Char) : Option Nat :=
  if '0' ≤ ch ∧ ch ≤ '9' then some (ch.toNat - '0'.toNat) else none

/-- Parse a nonempty all-digit token as a natural number. -/
def lineToNat? (l : Line) : Option Nat :=
  if l = [] then none
  else
    l.foldl
      (fun acc ch =>
        match acc, digitVal? ch with
        | some n, some d => some (n * 10 + d)
        | _, _ => none)
      (some 0)

/-- Embeds `u, v = map(int, text.split())`: succeeds only on exactly two integer
tokens (anything else raises ValueError and the line is skipped). -/
def parseTwoInts (l : Line) : Option (Nat × Nat) :=
  match (splitTok l).map lineToNat? with
  | [some u, some v] => some (u, v)
  | _ => none

/-- Embeds `read_graph_from_file` (graph.py lines 25-51) on the file's lines: skip
blank lines, skip comment lines starting with `c`, skip descriptor lines
starting with `p`, and on a line starting with `e` parse two integers after
the marker and add the edge; every other line is ignored. -/
def read_graph_from_file (lines : List Line) : Graph :=
  lines.foldl
    (fun G line =>
      let l := trimLine line
      if l = [] then G
      else if startsWith1 l 'c' then G
      else if startsWith1 l 'p' then G
      else if startsWith1 l 'e' then
        match parseTwoInts (l.drop 1) with
        | some (u, v) => add_edge G u v
        | none => G
      else G)
    ⟨[], []⟩

/-- The decimal digit character for `n < 10`. -/
def digitChar (n : Nat) : Char := Char.ofNat ('0'.toNat + n)

/-- Decimal digits of a number, with enough fuel to terminate. -/
def natToLineAux : Nat → Nat → Line
  | 0, _ => []
  | fuel + 1, n => if n < 10 then [digitChar n] else natToLineAux fuel (n / 10) ++ [digitChar (n % 10)]

/-- Embeds `str(n)` for a natural number. -/
def natToLine (n : Nat) : Line := natToLineAux (n + 1) n

/-- Embeds `write_graph_to_file` (graph.py lines 54-58): one `u v` line per
edge, no marker. -/
def write_graph_to_file (G : Graph) : List Line :=
  G.edges.map (fun e => natToLine e.1 ++ [' '] ++ natToLine e.2)

/- ---------------------------------------------------------------------
   Basic lemmas about dict lookup.
--------------------------------------------------------------------- -/

lemma findC_append_of_some {cm1 cm2 : ColorMap} {v c : Nat}
    (h : findC cm1 v = some c) : findC (cm1 ++ cm2) v = some c := by
  induction cm1 with
  | nil => simp [findC] at h
  | cons p rest ih =>
    obtain ⟨w, cw⟩ := p
    simp only [findC, List.cons_append] at h ⊢
    by_cases hw : w = v
    · simpa [hw] using h
    · simp [hw] at h ⊢; exact ih h

lemma findC_append_of_none {cm1 cm2 : ColorMap} {v : Nat}
    (h : findC cm1 v = none) : findC (cm1 ++ cm2) v = findC cm2 v := by
  induction cm1 with
  | nil => simp
  | cons p rest ih =>
    obtain ⟨w, cw⟩ := p
    simp only [findC, List.cons_append] at h ⊢
    by_cases hw : w = v
    · simp [hw] at h
    · simp [hw] at h ⊢; exact ih h

lemma findC_single {w c v : Nat} :
    findC [(w, c)] v = if w = v then some c else none := rfl

lemma findC_eq_none_iff {cm : ColorMap} {v : Nat} :
    findC cm v = none ↔ v ∉ keysOf cm := by
  induction cm with
  | nil => simp [findC, keysOf]
  | cons p rest ih =>
    obtain ⟨w, cw⟩ := p
    by_cases hw : w = v
    · simp [findC, keysOf, hw]
    · simp [findC, keysOf, hw, ih, Ne.symm hw]

lemma findC_isSome_iff {cm : ColorMap} {v : Nat} :
    (∃ c, findC cm v = some c) ↔ v ∈ keysOf cm := by
  rw [← Option.isSome_iff_exists]
  rcases h : findC cm v with _ | c
  · simp [findC_eq_none_iff.mp h]
  · simp only [Option.isSome_some, true_iff]
    by_contra hk
    rw [← findC_eq_none_iff] at hk
    rw [h] at hk; cases hk

lemma findC_append_insert {cm : ColorMap} {v c x : Nat} :
    findC (cm ++ [(v, c)]) x =
      match findC cm x with
      | some cx => some cx
      | none => if v = x then some c else none := by
  rcases h : findC cm x with _ | cx
  · simp [findC_append_of_none h, findC_single]
  · simp [findC_append_of_some h]

lemma keysOf_append {cm1 cm2 : ColorMap} :
    keysOf (cm1 ++ cm2) = keysOf cm1 ++ keysOf cm2 := by
  simp [keysOf]

/- ---------------------------------------------------------------------
   Lemmas about neighbors.
--------------------------------------------------------------------- -/

lemma mem_nbrsOf {E : List (Nat × Nat)} {u v : Nat} :
    u ∈ nbrsOf E v ↔ (v, u) ∈ E ∨ (u, v) ∈ E := by
  simp only [nbrsOf, List.mem_filterMap]
  constructor
  · rintro ⟨⟨a, b⟩, he, hf⟩
    by_cases ha : a = v
    · simp [ha] at hf; subst ha hf; exact Or.inl he
    · by_cases hb : b = v
      · simp [ha, hb] at hf; subst hb hf; exact Or.inr he
      · simp [ha, hb] at hf
  · rintro (h | h)
    · exact ⟨(v, u), h, by simp⟩
    · refine ⟨(u, v), h, ?_⟩
      by_cases huv : u = v <;> simp [huv]

lemma mem_nbrs {G : Graph} {u v : Nat} :
    u ∈ G.nbrs v ↔ (v, u) ∈ G.edges ∨ (u, v) ∈ G.edges := mem_nbrsOf

lemma nbrs_symm {G : Graph} {u v : Nat} : u ∈ G.nbrs v ↔ v ∈ G.nbrs u := by
  rw [mem_nbrs, mem_nbrs]; exact Or.comm

lemma not_self_nbr {G : Graph} (hWF : G.WF) (v : Nat) : v ∉ G.nbrs v := by
  intro h
  rcases mem_nbrs.mp h with h' | h' <;>
    exact (hWF.2 _ h').2.2 rfl

lemma mem_nodes_of_mem_nbrs {G : Graph} (hWF : G.WF) {u v : Nat}
    (h : u ∈ G.nbrs v) : u ∈ G.nodes := by
  rcases mem_nbrs.mp h with h' | h'
  · exact (hWF.2 _ h').2.1
  · exact (hWF.2 _ h').1

/- ---------------------------------------------------------------------
   Lemmas about the linear color probe.
--------------------------------------------------------------------- -/

lemma probe_ge (used : List Nat) : ∀ fuel c, c ≤ probe used fuel c := by
  intro fuel
  induction fuel with
  | zero => intro c; simp [probe]
  | succ f ih =>
    intro c
    simp only [probe]
    split
    · exact le_trans (Nat.le_succ c) (ih (c + 1))
    · exact le_refl c

lemma probe_mem_of_lt (used : List Nat) :
    ∀ fuel c d, c ≤ d → d < probe used fuel c → d ∈ used := by
  intro fuel
  induction fuel with
  | zero => intro c d hcd hd; simp [probe] at hd; omega
  | succ f ih =>
    intro c d hcd hd
    simp only [probe] at hd
    by_cases hc : c ∈ used
    · simp [hc] at hd
      rcases Nat.eq_or_lt_of_le hcd with h | h
      · subst h; exact hc
      · exact ih (c + 1) d h hd
    · simp [hc] at hd; omega

lemma length_filter_le_of_imp {p q : Nat → Bool} (l : List Nat)
    (h : ∀ x ∈ l, p x = true → q x = true) :
    (l.filter p).length ≤ (l.filter q).length := by
  induction l with
  | nil => simp
  | cons y t ih =>
    have ht : ∀ x ∈ t, p x = true → q x = true :=
      fun x hx => h x (List.mem_cons_of_mem _ hx)
    by_cases hp : p y = true
    · have hq : q y = true := h y (List.mem_cons_self _ _) hp
      simp [List.filter_cons, hp, hq]
      exact ih ht
    · simp only [List.filter_cons]
      rw [if_neg (by simpa using hp)]
      split
      · exact le_trans (ih ht) (by simp)
      · exact ih ht

lemma length_filter_succ_lt {used : List Nat} {c : Nat} (hc : c ∈ used) :
    (used.filter (fun x => decide (c + 1 ≤ x))).length
      < (used.filter (fun x => decide (c ≤ x))).length := by
  induction used with
  | nil => cases hc
  | cons y t ih =>
    have hmono : (t.filter (fun x => decide (c + 1 ≤ x))).length
        ≤ (t.filter (fun x => decide (c ≤ x))).length :=
      length_filter_le_of_imp t (by intro x _ hx; simp at hx ⊢; omega)
    simp only [List.filter_cons, decide_eq_true_eq]
    by_cases h1 : c + 1 ≤ y
    · have h2 : c ≤ y := by omega
      have hmem : c ∈ t := by
        rcases List.mem_cons.mp hc with heq | hmem
        · omega
        · exact hmem
      have iht := ih hmem
      rw [if_pos h1, if_pos h2]
      simp only [List.length_cons]
      omega
    · by_cases h2 : c ≤ y
      · rw [if_neg h1, if_pos h2]
        simp only [List.length_cons]
        omega
      · have hmem : c ∈ t := by
          rcases List.mem_cons.mp hc with heq | hmem
          · omega
          · exact hmem
        rw [if_neg h1, if_neg h2]
        exact ih hmem

lemma probe_not_mem (used : List Nat) :
    ∀ fuel c, (used.filter (fun x => decide (c ≤ x))).length < fuel →
      probe used fuel c ∉ used := by
  intro fuel
  induction fuel with
  | zero => intro c h; omega
  | succ f ih =>
    intro c h
    simp only [probe]
    by_cases hc : c ∈ used
    · simp only [hc, if_true]
      apply ih
      have hlt : (used.filter (fun x => decide (c + 1 ≤ x))).length
          < (used.filter (fun x => decide (c ≤ x))).length :=
        length_filter_succ_lt hc
      omega
    · rw [if_neg hc]; exact hc

lemma firstFree_not_mem (used : List Nat) : firstFree used ∉ used := by
  apply probe_not_mem
  calc (used.filter (fun x => decide (1 ≤ x))).length
      ≤ used.length := List.length_filter_le _ _
    _ < used.length + 1 := Nat.lt_succ_self _

lemma firstFree_pos (used : List Nat) : 1 ≤ firstFree used :=
  probe_ge used _ 1

lemma firstFree_min {used : List Nat} {d : Nat} (h1 : 1 ≤ d)
    (h2 : d < firstFree used) : d ∈ used :=
  probe_mem_of_lt used _ 1 d h1 h2

lemma firstFree_le (used : List Nat) : firstFree used ≤ used.length + 1 := by
  by_contra h
  push_neg at h
  have hsub : Finset.Ico 1 (firstFree used) ⊆ used.toFinset := by
    intro d hd
    rw [Finset.mem_Ico] at hd
    exact List.mem_toFinset.mpr (firstFree_min hd.1 hd.2)
  have hcard := Finset.card_le_card hsub
  rw [Nat.card_Ico] at hcard
  have := List.toFinset_card_le used
  omega

/- ---------------------------------------------------------------------
   Inserting a fresh, compatible entry preserves properness.
--------------------------------------------------------------------- -/

lemma findC_mem {cm : ColorMap} {v c : Nat} (h : findC cm v = some c) : (v, c) ∈ cm := by
  induction cm with
  | nil => cases h
  | cons p rest ih =>
    obtain ⟨w, cw⟩ := p
    by_cases hw : w = v
    · rw [findC, if_pos hw] at h
      injection h with h
      exact List.mem_cons.mpr (Or.inl (by rw [hw, h]))
    · rw [findC, if_neg hw] at h
      exact List.mem_cons_of_mem _ (ih h)

lemma findC_append_insert_ne {cm : ColorMap} {v c w : Nat} (h : v ≠ w) :
    findC (cm ++ [(v, c)]) w = findC cm w := by
  rcases h1 : findC cm w with _ | cw
  · rw [findC_append_of_none h1, findC_single, if_neg h]
  · rw [findC_append_of_some h1]

lemma findC_append_insert_self {cm : ColorMap} {v c : Nat} (h : findC cm v = none) :
    findC (cm ++ [(v, c)]) v = some c := by
  rw [findC_append_of_none h, findC_single, if_pos rfl]

lemma proper_insert {G : Graph} {cm : ColorMap} {v c : Nat}
    (hP : Proper G cm) (_hv : findC cm v = none) (hself : v ∉ G.nbrs v)
    (hcond : ∀ u ∈ G.nbrs v, findC cm u ≠ some c) :
    Proper G (cm ++ [(v, c)]) := by
  intro u w cw hadj hu
  rcases h1 : findC cm u with _ | cu
  · rw [findC_append_of_none h1, findC_single] at hu
    by_cases huv : v = u
    · rw [if_pos huv] at hu
      injection hu with hc
      subst huv
      subst hc
      rcases h2 : findC cm w with _ | cw2
      · rw [findC_append_of_none h2, findC_single]
        by_cases hwv : v = w
        · subst hwv; exact absurd hadj hself
        · rw [if_neg hwv]; simp
      · rw [findC_append_of_some h2]
        intro he
        injection he with he
        exact hcond w (nbrs_symm.mp hadj) (by rw [h2, he])
    · rw [if_neg huv] at hu; cases hu
  · rw [findC_append_of_some h1] at hu
    injection hu with he
    subst he
    rcases h2 : findC cm w with _ | cw2
    · rw [findC_append_of_none h2, findC_single]
      by_cases hwv : v = w
      · subst hwv
        rw [if_pos rfl]
        intro he
        injection he with he
        exact hcond u hadj (by rw [h1, he])
      · rw [if_neg hwv]; simp
    · rw [findC_append_of_some h2]
      intro he
      injection he with he
      exact hP u w cu hadj h1 (by rw [h2, he])

lemma colorsLe_insert {G : Graph} {cm : ColorMap} {v : Nat}
    (hB : ColorsLe G cm) :
    ColorsLe G (cm ++ [(v, firstFree (nbrColors G cm v))]) := by
  intro w c hw
  rcases h1 : findC cm w with _ | cw
  · rw [findC_append_of_none h1, findC_single] at hw
    by_cases hvw : v = w
    · rw [if_pos hvw] at hw
      injection hw with hc
      subst hvw
      subst hc
      have h2 : (nbrColors G cm v).length ≤ (G.nbrs v).length :=
        List.length_filterMap_le _ _
      have h3 := firstFree_le (nbrColors G cm v)
      simp only [Graph.degree]
      omega
    · rw [if_neg hvw] at hw; cases hw
  · rw [findC_append_of_some h1] at hw
    injection hw with he
    subst he
    exact hB w cw h1

lemma firstFree_avoids_nbrs {G : Graph} {cm : ColorMap} {v : Nat} :
    ∀ u ∈ G.nbrs v, findC cm u ≠ some (firstFree (nbrColors G cm v)) := by
  intro u hu heq
  exact firstFree_not_mem (nbrColors G cm v) (List.mem_filterMap.mpr ⟨u, hu, heq⟩)

/- ---------------------------------------------------------------------
   The greedy algorithm: master induction.
--------------------------------------------------------------------- -/

lemma greedy_aux (G : Graph) (hWF : G.WF) :
    ∀ (l : List Nat) (cm : ColorMap), l.Nodup → (∀ v ∈ l, findC cm v = none) →
      Proper G cm → ColorsLe G cm →
      Proper G (l.foldl (greedyStep G) cm) ∧
      ColorsLe G (l.foldl (greedyStep G) cm) ∧
      keysOf (l.foldl (greedyStep G) cm) = keysOf cm ++ l ∧
      (∀ u c, findC cm u = some c → findC (l.foldl (greedyStep G) cm) u = some c) := by
  intro l
  induction l with
  | nil =>
    intro cm _ _ hP hB
    exact ⟨hP, hB, by simp, fun u c h => h⟩
  | cons v t ih =>
    intro cm hnd hnone hP hB
    simp only [List.foldl_cons]
    have hv : findC cm v = none := hnone v (List.mem_cons_self _ _)
    have hP' : Proper G (greedyStep G cm v) :=
      proper_insert hP hv (not_self_nbr hWF v) firstFree_avoids_nbrs
    have hB' : ColorsLe G (greedyStep G cm v) := colorsLe_insert hB
    have hnone' : ∀ w ∈ t, findC (greedyStep G cm v) w = none := by
      intro w hw
      have hwv : v ≠ w := by
        intro h
        subst h
        exact (List.nodup_cons.mp hnd).1 hw
      rw [greedyStep, findC_append_insert_ne hwv]
      exact hnone w (List.mem_cons_of_mem _ hw)
    obtain ⟨P2, B2, K2, S2⟩ := ih (greedyStep G cm v) (List.nodup_cons.mp hnd).2 hnone' hP' hB'
    refine ⟨P2, B2, ?_, ?_⟩
    · rw [K2, greedyStep, keysOf_append]
      simp [keysOf]
    · intro u c2 hu
      exact S2 u c2 (findC_append_of_some hu)

/- ---------------------------------------------------------------------
   Welsh-Powell: lemmas about the extension pass and the outer loop.
--------------------------------------------------------------------- -/

/-- Every color in the map is at most `m`. -/
def BoundedBy (cm : ColorMap) (m : Nat) : Prop :=
  ∀ v c, findC cm v = some c → c ≤ m

lemma wpExtend_append (G : Graph) (c : Nat) :
    ∀ (scan : List Nat) (cm : ColorMap),
      ∃ r, wpExtend G c scan cm = cm ++ r ∧ ∀ p ∈ r, p.1 ∈ scan ∧ p.2 = c := by
  intro scan
  induction scan with
  | nil =>
    intro cm
    exact ⟨[], by simp [wpExtend], by simp⟩
  | cons v t ih =>
    intro cm
    simp only [wpExtend]
    split
    · obtain ⟨r, hr, hall⟩ := ih (cm ++ [(v, c)])
      refine ⟨(v, c) :: r, by rw [hr, List.append_assoc]; rfl, ?_⟩
      intro p hp
      rcases List.mem_cons.mp hp with h | h
      · subst h
        exact ⟨List.mem_cons_self _ _, rfl⟩
      · exact ⟨List.mem_cons_of_mem _ (hall p h).1, (hall p h).2⟩
    · obtain ⟨r, hr, hall⟩ := ih cm
      exact ⟨r, hr, fun p hp => ⟨List.mem_cons_of_mem _ (hall p hp).1, (hall p hp).2⟩⟩

lemma wpExtend_stable {G : Graph} {c : Nat} {scan : List Nat} {cm : ColorMap}
    {u cu : Nat} (h : findC cm u = some cu) :
    findC (wpExtend G c scan cm) u = some cu := by
  obtain ⟨r, hr, _⟩ := wpExtend_append G c scan cm
  rw [hr]
  exact findC_append_of_some h

lemma wpExtend_proper (G : Graph) (hWF : G.WF) (c : Nat) :
    ∀ (scan : List Nat) (cm : ColorMap), Proper G cm → Proper G (wpExtend G c scan cm) := by
  intro scan
  induction scan with
  | nil => intro cm hP; exact hP
  | cons v t ih =>
    intro cm hP
    simp only [wpExtend]
    split
    · rename_i hguard
      exact ih _ (proper_insert hP hguard.1 (not_self_nbr hWF v) hguard.2)
    · exact ih _ hP

lemma boundedBy_append {cm r : ColorMap} {m : Nat} (hB : BoundedBy cm m)
    (hall : ∀ p ∈ r, p.2 ≤ m) : BoundedBy (cm ++ r) m := by
  intro v c hv
  rcases h1 : findC cm v with _ | cv
  · rw [findC_append_of_none h1] at hv
    have hm := findC_mem hv
    exact hall _ hm
  · rw [findC_append_of_some h1] at hv
    injection hv with he
    subst he
    exact hB v cv h1

lemma wpExtend_bounded {G : Graph} {c : Nat} {scan : List Nat} {cm : ColorMap}
    {m : Nat} (hB : BoundedBy cm m) (hc : c ≤ m) :
    BoundedBy (wpExtend G c scan cm) m := by
  obtain ⟨r, hr, hall⟩ := wpExtend_append G c scan cm
  rw [hr]
  exact boundedBy_append hB (fun p hp => by rw [(hall p hp).2]; exact hc)

lemma wpLoop_append (G : Graph) :
    ∀ (l : List Nat) (cc : Nat) (cm : ColorMap),
      ∃ r, wpLoop G l cc cm = cm ++ r ∧ ∀ p ∈ r, p.1 ∈ l ∨ p.1 ∈ G.nodes := by
  intro l
  induction l with
  | nil =>
    intro cc cm
    exact ⟨[], by simp [wpLoop], by simp⟩
  | cons v t ih =>
    intro cc cm
    simp only [wpLoop]
    split
    · obtain ⟨r1, hr1, hall1⟩ := wpExtend_append G (cc + 1) G.nodes (cm ++ [(v, cc + 1)])
      obtain ⟨r2, hr2, hall2⟩ := ih (cc + 1) (wpOpen G cc v cm)
      refine ⟨(v, cc + 1) :: (r1 ++ r2), ?_, ?_⟩
      · rw [hr2, wpOpen, hr1, List.append_assoc, List.append_assoc]
        rfl
      · intro p hp
        rcases List.mem_cons.mp hp with h | h
        · subst h
          exact Or.inl (List.mem_cons_self _ _)
        · rcases List.mem_append.mp h with h | h
          · exact Or.inr (hall1 p h).1
          · rcases hall2 p h with h' | h'
            · exact Or.inl (List.mem_cons_of_mem _ h')
            · exact Or.inr h'
    · obtain ⟨r, hr, hall⟩ := ih cc cm
      refine ⟨r, hr, ?_⟩
      intro p hp
      rcases hall p hp with h | h
      · exact Or.inl (List.mem_cons_of_mem _ h)
      · exact Or.inr h

lemma wpLoop_stable {G : Graph} {l : List Nat} {cc : Nat} {cm : ColorMap}
    {u cu : Nat} (h : findC cm u = some cu) :
    findC (wpLoop G l cc cm) u = some cu := by
  obtain ⟨r, hr, _⟩ := wpLoop_append G l cc cm
  rw [hr]
  exact findC_append_of_some h

lemma wpLoop_master (G : Graph) (hWF : G.WF) :
    ∀ (l : List Nat) (cc : Nat) (cm : ColorMap),
      Proper G cm → BoundedBy cm cc →
      Proper G (wpLoop G l cc cm) ∧ (∀ v ∈ l, findC (wpLoop G l cc cm) v ≠ none) := by
  intro l
  induction l with
  | nil =>
    intro cc cm hP _
    exact ⟨hP, by simp⟩
  | cons v t ih =>
    intro cc cm hP hB
    simp only [wpLoop]
    split
    · rename_i hv
      have hPopen : Proper G (wpOpen G cc v cm) := by
        apply wpExtend_proper G hWF _ _ _
        apply proper_insert hP hv (not_self_nbr hWF v)
        intro u hu heq
        have := hB u _ heq
        omega
      have hBopen : BoundedBy (wpOpen G cc v cm) (cc + 1) := by
        apply wpExtend_bounded _ (le_refl _)
        apply boundedBy_append (fun w c h => le_trans (hB w c h) (Nat.le_succ cc))
        intro p hp
        rcases List.mem_singleton.mp hp with h
        rw [h]
      obtain ⟨P2, T2⟩ := ih (cc + 1) (wpOpen G cc v cm) hPopen hBopen
      refine ⟨P2, ?_⟩
      intro w hw
      rcases List.mem_cons.mp hw with h | h
      · have hvcol : findC (wpOpen G cc v cm) v = some (cc + 1) :=
          wpExtend_stable (findC_append_insert_self hv)
        rw [h, wpLoop_stable hvcol]
        simp
      · exact T2 w h
    · rename_i hv
      obtain ⟨P2, T2⟩ := ih cc cm hP hB
      refine ⟨P2, ?_⟩
      intro w hw
      rcases List.mem_cons.mp hw with h | h
      · subst h
        rcases h2 : findC cm w with _ | cw
        · exact absurd h2 hv
        · rw [wpLoop_stable h2]
          simp
      · exact T2 w h

/- ---------------------------------------------------------------------
   The degree-descending sort is a permutation of the node list.
--------------------------------------------------------------------- -/

lemma insertDesc_perm (G : Graph) (x : Nat) :
    ∀ l : List Nat, (insertDesc G x l).Perm (x :: l) := by
  intro l
  induction l with
  | nil => simp [insertDesc]
  | cons y ys ih =>
    simp only [insertDesc]
    split
    · exact List.Perm.refl _
    · exact List.Perm.trans (List.Perm.cons y ih) (List.Perm.swap x y ys)

lemma sortNodesDesc_perm (G : Graph) :
    ∀ l : List Nat, (sortNodesDesc G l).Perm l := by
  intro l
  induction l with
  | nil => simp [sortNodesDesc]
  | cons x xs ih =>
    simp only [sortNodesDesc]
    exact List.Perm.trans (insertDesc_perm G x (sortNodesDesc G xs)) (List.Perm.cons x ih)

lemma mem_sortedNodes {G : Graph} {v : Nat} : v ∈ sortedNodes G ↔ v ∈ G.nodes :=
  (sortNodesDesc_perm G G.nodes).mem_iff

/- ---------------------------------------------------------------------
   Python's max over (saturation, degree) keys.
--------------------------------------------------------------------- -/

lemma lexLt_trans {a b c : Nat × Nat} (h1 : lexLt a b) (h2 : lexLt b c) : lexLt a c := by
  obtain ⟨a1, a2⟩ := a
  obtain ⟨b1, b2⟩ := b
  obtain ⟨c1, c2⟩ := c
  simp only [lexLt] at h1 h2 ⊢
  omega

lemma lexLt_irrefl (a : Nat × Nat) : ¬ lexLt a a := by
  obtain ⟨a1, a2⟩ := a
  simp only [lexLt]
  omega

lemma lexLt_of_lt_of_not_lt {a b c : Nat × Nat} (h1 : lexLt a b) (h2 : ¬ lexLt c b) :
    lexLt a c := by
  obtain ⟨a1, a2⟩ := a
  obtain ⟨b1, b2⟩ := b
  obtain ⟨c1, c2⟩ := c
  simp only [lexLt] at h1 h2 ⊢
  omega

lemma pickBest_spec (key : Nat → Nat × Nat) :
    ∀ (l : List Nat) (v : Nat),
      pickBest key v l ∈ v :: l ∧ ¬ lexLt (key (pickBest key v l)) (key v) ∧
      ∀ u ∈ l, ¬ lexLt (key (pickBest key v l)) (key u) := by
  intro l
  induction l with
  | nil =>
    intro v
    exact ⟨List.mem_cons_self _ _, lexLt_irrefl _, by simp⟩
  | cons w t ih =>
    intro v
    have hstep : pickBest key v (w :: t) =
        pickBest key (if lexLt (key v) (key w) then w else v) t := by
      simp only [pickBest, List.foldl_cons]
    by_cases hlt : lexLt (key v) (key w)
    · rw [hstep, if_pos hlt]
      obtain ⟨m1, m2, m3⟩ := ih w
      refine ⟨?_, ?_, ?_⟩
      · rcases List.mem_cons.mp m1 with h | h
        · rw [h]; exact List.mem_cons_of_mem _ (List.mem_cons_self _ _)
        · exact List.mem_cons_of_mem _ (List.mem_cons_of_mem _ h)
      · intro hc
        exact m2 (lexLt_trans hc hlt)
      · intro u hu
        rcases List.mem_cons.mp hu with h | h
        · rw [h]; exact m2
        · exact m3 u h
    · rw [hstep, if_neg hlt]
      obtain ⟨m1, m2, m3⟩ := ih v
      refine ⟨?_, m2, ?_⟩
      · rcases List.mem_cons.mp m1 with h | h
        · rw [h]; exact List.mem_cons_self _ _
        · exact List.mem_cons_of_mem _ (List.mem_cons_of_mem _ h)
      · intro u hu
        rcases List.mem_cons.mp hu with h | h
        · rw [h]
          intro hc
          exact m2 (lexLt_of_lt_of_not_lt hc hlt)
        · exact m3 u h

lemma pickMax_spec {key : Nat → Nat × Nat} {l : List Nat} {v : Nat}
    (h : pickMax key l = some v) :
    v ∈ l ∧ ∀ u ∈ l, ¬ lexLt (key v) (key u) := by
  cases l with
  | nil => cases h
  | cons w t =>
    simp only [pickMax] at h
    injection h with h
    obtain ⟨m1, m2, m3⟩ := pickBest_spec key t w
    rw [h] at m1 m2 m3
    refine ⟨m1, ?_⟩
    intro u hu
    rcases List.mem_cons.mp hu with h' | h'
    · rw [h']; exact m2
    · exact m3 u h'

lemma pickMax_eq_none {key : Nat → Nat × Nat} {l : List Nat}
    (h : pickMax key l = none) : l = [] := by
  cases l with
  | nil => rfl
  | cons w t => simp [pickMax] at h

/- ---------------------------------------------------------------------
   Evaluating the saturation update.
--------------------------------------------------------------------- -/

lemma foldl_bump_eval (p : Nat → Prop) [DecidablePred p] :
    ∀ (l : List Nat) (f : Nat → Nat) (x : Nat),
      (l.foldl (fun g w => if p w then bumpSat g w else g) f) x
        = f x + (if p x then l.count x else 0) := by
  intro l
  induction l with
  | nil =>
    intro f x
    simp
  | cons w t ih =>
    intro f x
    simp only [List.foldl_cons]
    rw [ih]
    by_cases hx : x = w
    · subst hx
      by_cases hp : p x
      · rw [if_pos hp, if_pos hp, if_pos hp]
        have hb : bumpSat f x x = f x + 1 := by
          simp [bumpSat]
        rw [hb, List.count_cons_self]
        omega
      · rw [if_neg hp, if_neg hp, if_neg hp]
    · by_cases hp : p w
      · rw [if_pos hp]
        have hb : bumpSat f w x = f x := by
          simp [bumpSat, hx]
        rw [hb, List.count_cons_of_ne hx]
      · rw [if_neg hp, List.count_cons_of_ne hx]

lemma dsaturUpdate_eval (G : Graph) (v : Nat) (cm : ColorMap) (f : Nat → Nat) (x : Nat) :
    dsaturUpdate G v cm f x =
      f x + (if findC cm x = none then (G.nbrs v).count x else 0) :=
  foldl_bump_eval (fun w => findC cm w = none) (G.nbrs v) f x

/- ---------------------------------------------------------------------
   Counting colored neighbors before and after an insertion.
--------------------------------------------------------------------- -/

lemma length_filter_or_eq {p : Nat → Bool} {v : Nat} (hp : p v = false) :
    ∀ l : List Nat,
      (l.filter (fun u => p u || u == v)).length = (l.filter p).length + l.count v := by
  intro l
  induction l with
  | nil => simp
  | cons w t ih =>
    by_cases hw : w = v
    · subst hw
      have h1 : (p w || (w == w)) = true := by simp
      have h2 : ¬ (p w = true) := by simp [hp]
      rw [List.filter_cons, List.filter_cons, if_pos h1, if_neg h2,
        List.count_cons_self, List.length_cons, ih]
      omega
    · have hvw : v ≠ w := fun h => hw h.symm
      have hbeq : (w == v) = false := by
        simp [hw]
      by_cases hpw : p w = true
      · have h1 : (p w || (w == v)) = true := by
          rw [hpw]; rfl
        rw [List.filter_cons, List.filter_cons, if_pos h1, if_pos hpw,
          List.count_cons_of_ne hvw, List.length_cons, List.length_cons, ih]
        omega
      · have h1 : ¬ ((p w || (w == v)) = true) := by
          have hpw' : p w = false := by
            simpa using hpw
          rw [hpw', hbeq]
          simp
        rw [List.filter_cons, List.filter_cons, if_neg h1, if_neg hpw,
          List.count_cons_of_ne hvw, ih]

lemma isSome_findC_append_insert {cm : ColorMap} {v c w : Nat}
    (hv : findC cm v = none) :
    (findC (cm ++ [(v, c)]) w).isSome = ((findC cm w).isSome || w == v) := by
  by_cases hw : v = w
  · subst hw
    rw [findC_append_insert_self hv, hv]
    simp
  · rw [findC_append_insert_ne hw]
    have : (w == v) = false := by
      simp [Ne.symm hw]
    rw [this]
    simp

lemma coloredNbrCount_insert {G : Graph} {cm : ColorMap} {v c x : Nat}
    (hv : findC cm v = none) :
    coloredNbrCount G (cm ++ [(v, c)]) x
      = coloredNbrCount G cm x + (G.nbrs x).count v := by
  unfold coloredNbrCount
  have hcong : (G.nbrs x).filter (fun w => (findC (cm ++ [(v, c)]) w).isSome)
      = (G.nbrs x).filter (fun w => (findC cm w).isSome || w == v) := by
    apply List.filter_congr
    intro w _
    exact isSome_findC_append_insert hv
  rw [hcong]
  exact length_filter_or_eq (by rw [hv]; rfl) (G.nbrs x)

lemma nbrsOf_cons (a b v : Nat) (t : List (Nat × Nat)) :
    nbrsOf ((a, b) :: t) v =
      if a = v then b :: nbrsOf t v
      else if b = v then a :: nbrsOf t v
      else nbrsOf t v := by
  unfold nbrsOf
  rw [List.filterMap_cons]
  by_cases h1 : a = v
  · simp [h1]
  · by_cases h2 : b = v <;> simp [h1, h2]

lemma count_nbrsOf_symm {u v : Nat} (huv : u ≠ v) :
    ∀ E : List (Nat × Nat), (nbrsOf E u).count v = (nbrsOf E v).count u := by
  intro E
  induction E with
  | nil => simp [nbrsOf]
  | cons e t ih =>
    obtain ⟨a, b⟩ := e
    rw [nbrsOf_cons, nbrsOf_cons]
    by_cases hau : a = u
    · have hav : ¬ a = v := fun h => huv (by rw [← hau, h])
      rw [if_pos hau, if_neg hav]
      by_cases hbv : b = v
      · rw [if_pos hbv]
        subst hau
        subst hbv
        rw [List.count_cons_self, List.count_cons_self, ih]
      · have hbv2 : ¬ b = v := hbv
        rw [if_neg hbv, List.count_cons_of_ne (fun h => hbv2 h.symm), ih]
    · by_cases hbu : b = u
      · have hbv : ¬ b = v := fun h => huv (by rw [← hbu, h])
        rw [if_neg hau, if_pos hbu]
        by_cases hav : a = v
        · rw [if_pos hav]
          subst hbu
          subst hav
          rw [List.count_cons_self, List.count_cons_self, ih]
        · rw [if_neg hav, if_neg hbv,
            List.count_cons_of_ne (fun h => hav h.symm), ih]
      · rw [if_neg hau, if_neg hbu]
        by_cases hav : a = v
        · rw [if_pos hav, List.count_cons_of_ne (fun h => hbu h.symm), ih]
        · by_cases hbv : b = v
          · rw [if_neg hav, if_pos hbv,
              List.count_cons_of_ne (fun h => hau h.symm), ih]
          · rw [if_neg hav, if_neg hbv, ih]

/- ---------------------------------------------------------------------
   The dsatur loop invariant.
--------------------------------------------------------------------- -/

lemma mem_uncoloredIn {G : Graph} {cm : ColorMap} {x : Nat} :
    x ∈ uncoloredIn G cm ↔ x ∈ G.nodes ∧ findC cm x = none := by
  simp [uncoloredIn, List.mem_filter, Option.isNone_iff_eq_none]

/-- Everything `dsatur` maintains about its state: the partial coloring is
proper, colors respect the degree bound, keys are distinct vertices of the
graph, and the saturation table counts the colored neighbors of every
uncolored vertex. -/
def DInv (G : Graph) (s : DState) : Prop :=
  Proper G s.cm ∧ ColorsLe G s.cm ∧ (keysOf s.cm).Nodup ∧
  (∀ x ∈ keysOf s.cm, x ∈ G.nodes) ∧
  (∀ x ∈ G.nodes, findC s.cm x = none → s.sat x = coloredNbrCount G s.cm x)

lemma dsaturStep_inv (G : Graph) (hWF : G.WF) (s s' : DState)
    (hs : dsaturStep G s = some s') (hI : DInv G s) :
    DInv G s' ∧ s'.cm.length = s.cm.length + 1 := by
  obtain ⟨hP, hB, hND, hSub, hSat⟩ := hI
  rcases hch : dsaturChoose G s with _ | v
  · simp only [dsaturStep, hch] at hs
    exact Option.noConfusion hs
  · simp only [dsaturStep, hch] at hs
    rw [dsaturChoose] at hch
    obtain ⟨hvmem, -⟩ := pickMax_spec hch
    obtain ⟨hvnode, hvnone⟩ := mem_uncoloredIn.mp hvmem
    injection hs with hs
    subst hs
    have hknotin : v ∉ keysOf s.cm := findC_eq_none_iff.mp hvnone
    have hkeys2 : keysOf (s.cm ++ [(v, firstFree (nbrColors G s.cm v))])
        = keysOf s.cm ++ [v] := by
      rw [keysOf_append]; rfl
    refine ⟨⟨?_, ?_, ?_, ?_, ?_⟩, by simp⟩
    · exact proper_insert hP hvnone (not_self_nbr hWF v) firstFree_avoids_nbrs
    · exact colorsLe_insert hB
    · rw [hkeys2, List.nodup_append]
      refine ⟨hND, List.nodup_singleton v, ?_⟩
      intro a ha hav
      rw [List.mem_singleton] at hav
      subst hav
      exact hknotin ha
    · intro x hx
      rw [hkeys2] at hx
      rcases List.mem_append.mp hx with h | h
      · exact hSub x h
      · rw [List.mem_singleton] at h
        subst h
        exact hvnode
    · intro x hxnode hxnone
      dsimp only at hxnone ⊢
      have hxnone0 : findC s.cm x = none := by
        rcases h0 : findC s.cm x with _ | cx
        · rfl
        · rw [findC_append_of_some h0] at hxnone
          cases hxnone
      have hxv : x ≠ v := by
        intro h
        subst h
        rw [findC_append_insert_self hvnone] at hxnone
        cases hxnone
      have hsat2 : dsaturUpdate G v (s.cm ++ [(v, firstFree (nbrColors G s.cm v))]) s.sat x
          = s.sat x + (G.nbrs v).count x := by
        rw [dsaturUpdate_eval, if_pos hxnone]
      rw [hsat2, hSat x hxnode hxnone0, coloredNbrCount_insert hvnone]
      have hcnt : (G.nbrs x).count v = (G.nbrs v).count x := by
        simp only [Graph.nbrs]
        exact count_nbrsOf_symm hxv G.edges
      rw [hcnt]

lemma dsaturRun_inv (G : Graph) (hWF : G.WF) :
    ∀ k, DInv G (dsaturRun G k) ∧
      ((dsaturRun G k).cm.length = k ∨
        ∀ x ∈ G.nodes, findC (dsaturRun G k).cm x ≠ none) := by
  intro k
  induction k with
  | zero =>
    have hcm : (dsaturRun G 0).cm = [] := rfl
    refine ⟨⟨?_, ?_, ?_, ?_, ?_⟩, Or.inl rfl⟩
    · intro u w c _ hu
      rw [hcm] at hu
      exact Option.noConfusion hu
    · intro x c h
      rw [hcm] at h
      exact Option.noConfusion h
    · rw [hcm]
      exact List.nodup_nil
    · intro x hx
      rw [hcm] at hx
      simp [keysOf] at hx
    · intro x hx _
      show (0 : Nat) = coloredNbrCount G (dsaturRun G 0).cm x
      rw [hcm]
      simp [coloredNbrCount, findC]
  | succ k ih =>
    obtain ⟨hI, hprog⟩ := ih
    rcases hstep : dsaturStep G (dsaturRun G k) with _ | s2
    · have hrun : dsaturRun G (k + 1) = dsaturRun G k := by
        simp [dsaturRun, hstep]
      rw [hrun]
      refine ⟨hI, Or.inr ?_⟩
      have hch : dsaturChoose G (dsaturRun G k) = none := by
        rcases h : dsaturChoose G (dsaturRun G k) with _ | v
        · rfl
        · simp only [dsaturStep, h] at hstep
          exact Option.noConfusion hstep
      rw [dsaturChoose] at hch
      have hemp := pickMax_eq_none hch
      intro x hx hxnone
      have hxin : x ∈ uncoloredIn G (dsaturRun G k).cm :=
        mem_uncoloredIn.mpr ⟨hx, hxnone⟩
      rw [hemp] at hxin
      cases hxin
    · have hrun : dsaturRun G (k + 1) = s2 := by
        simp [dsaturRun, hstep]
      obtain ⟨hI2, hlen⟩ := dsaturStep_inv G hWF _ s2 hstep hI
      rw [hrun]
      refine ⟨hI2, ?_⟩
      rcases hprog with hl | hall
      · exact Or.inl (by rw [hlen, hl])
      · exfalso
        rcases hch : dsaturChoose G (dsaturRun G k) with _ | v
        · simp only [dsaturStep, hch] at hstep
          exact Option.noConfusion hstep
        · rw [dsaturChoose] at hch
          obtain ⟨hmem, -⟩ := pickMax_spec hch
          obtain ⟨hxn, hxnone⟩ := mem_uncoloredIn.mp hmem
          exact hall v hxn hxnone

lemma dsatur_total (G : Graph) (hWF : G.WF) :
    ∀ x ∈ G.nodes, findC (dsatur G) x ≠ none := by
  obtain ⟨hI, hprog⟩ := dsaturRun_inv G hWF G.nodes.length
  rcases hprog with hl | hall
  · intro x hx hnone
    simp only [dsatur] at hnone
    have hkey : x ∉ keysOf (dsaturRun G G.nodes.length).cm :=
      findC_eq_none_iff.mp hnone
    obtain ⟨-, -, hND, hSub, -⟩ := hI
    have hlenK : (keysOf (dsaturRun G G.nodes.length).cm).length = G.nodes.length := by
      rw [keysOf, List.length_map, hl]
    have hsubF : (keysOf (dsaturRun G G.nodes.length).cm).toFinset ⊆ G.nodes.toFinset := by
      intro a ha
      exact List.mem_toFinset.mpr (hSub a (List.mem_toFinset.mp ha))
    have hcards : G.nodes.toFinset.card ≤ (keysOf (dsaturRun G G.nodes.length).cm).toFinset.card := by
      rw [List.toFinset_card_of_nodup hND, List.toFinset_card_of_nodup hWF.1, hlenK]
    have heq := Finset.eq_of_subset_of_card_le hsubF hcards
    have hxk : x ∈ (keysOf (dsaturRun G G.nodes.length).cm).toFinset := by
      rw [heq]
      exact List.mem_toFinset.mpr hx
    exact hkey (List.mem_toFinset.mp hxk)
  · intro x hx
    simp only [dsatur]
    exact hall x hx

/- ---------------------------------------------------------------------
   Decomposing the greedy fold around one vertex.
--------------------------------------------------------------------- -/

lemma greedy_fold_append (G : Graph) :
    ∀ (l : List Nat) (cm : ColorMap),
      ∃ r, l.foldl (greedyStep G) cm = cm ++ r ∧ keysOf r = l := by
  intro l
  induction l with
  | nil =>
    intro cm
    exact ⟨[], by simp, rfl⟩
  | cons v t ih =>
    intro cm
    obtain ⟨r, hr, hk⟩ := ih (greedyStep G cm v)
    refine ⟨(v, firstFree (nbrColors G cm v)) :: r, ?_, ?_⟩
    · rw [List.foldl_cons, hr, greedyStep, List.append_assoc]
      rfl
    · rw [keysOf] at hk ⊢
      simp only [List.map_cons]
      rw [hk]

lemma greedy_fold_stable {G : Graph} {l : List Nat} {cm : ColorMap} {u cu : Nat}
    (h : findC cm u = some cu) :
    findC (l.foldl (greedyStep G) cm) u = some cu := by
  obtain ⟨r, hr, -⟩ := greedy_fold_append G l cm
  rw [hr]
  exact findC_append_of_some h

/- ---------------------------------------------------------------------
   The Welsh-Powell loop with the scan order made explicit.
--------------------------------------------------------------------- -/

lemma wpLoop_eq_scan (G : Graph) :
    ∀ (l : List Nat) (cc : Nat) (cm : ColorMap),
      wpLoop G l cc cm = wpLoopScan G G.nodes l cc cm := by
  intro l
  induction l with
  | nil => intro cc cm; rfl
  | cons v t ih =>
    intro cc cm
    simp only [wpLoop, wpLoopScan, wpOpen]
    split
    · exact ih _ _
    · exact ih _ _

/- ---------------------------------------------------------------------
   Edgeless graphs: every vertex receives color 1.
--------------------------------------------------------------------- -/

lemma nbrs_of_edgeless {G : Graph} (hE : G.edges = []) (v : Nat) : G.nbrs v = [] := by
  rw [Graph.nbrs, hE]
  rfl

lemma greedy_fold_edgeless (G : Graph) (hE : G.edges = []) :
    ∀ (l : List Nat) (cm : ColorMap),
      l.foldl (greedyStep G) cm = cm ++ l.map (fun v => (v, 1)) := by
  intro l
  induction l with
  | nil => intro cm; simp
  | cons v t ih =>
    intro cm
    rw [List.foldl_cons, ih, greedyStep]
    have h1 : nbrColors G cm v = [] := by
      rw [nbrColors, nbrs_of_edgeless hE]
      rfl
    rw [h1]
    have h2 : firstFree [] = 1 := rfl
    rw [h2, List.map_cons, List.append_assoc]
    rfl

lemma findC_map_one :
    ∀ (l : List Nat) (v : Nat), v ∈ l → findC (l.map (fun v => (v, 1))) v = some 1 := by
  intro l
  induction l with
  | nil => intro v hv; cases hv
  | cons w t ih =>
    intro v hv
    simp only [List.map_cons, findC]
    by_cases h : w = v
    · rw [if_pos h]
    · rw [if_neg h]
      rcases List.mem_cons.mp hv with h' | h'
      · exact absurd h'.symm h
      · exact ih v h'

lemma wpExtend_total_edgeless (G : Graph) (hE : G.edges = []) (c : Nat) :
    ∀ (scan : List Nat) (cm : ColorMap), ∀ u ∈ scan,
      findC (wpExtend G c scan cm) u ≠ none := by
  intro scan
  induction scan with
  | nil => intro cm u hu; cases hu
  | cons v t ih =>
    intro cm u hu
    simp only [wpExtend]
    have hB : ∀ n ∈ G.nbrs v, findC cm n ≠ some c := by
      rw [nbrs_of_edgeless hE]
      simp
    by_cases hv : findC cm v = none
    · rw [if_pos ⟨hv, hB⟩]
      rcases List.mem_cons.mp hu with h | h
      · rw [h, wpExtend_stable (findC_append_insert_self hv)]
        simp
      · exact ih _ u h
    · rw [if_neg (fun hg => hv hg.1)]
      rcases List.mem_cons.mp hu with h | h
      · rcases h2 : findC cm v with _ | cv
        · exact absurd h2 hv
        · rw [h, wpExtend_stable h2]
          simp
      · exact ih cm u h

lemma wpExtend_ones {G : Graph} {scan : List Nat} {cm : ColorMap}
    (hones : ∀ w cw, findC cm w = some cw → cw = 1) :
    ∀ w cw, findC (wpExtend G 1 scan cm) w = some cw → cw = 1 := by
  obtain ⟨r, hr, hall⟩ := wpExtend_append G 1 scan cm
  rw [hr]
  intro w cw hw
  rcases h1 : findC cm w with _ | cw1
  · rw [findC_append_of_none h1] at hw
    exact (hall _ (findC_mem hw)).2
  · rw [findC_append_of_some h1] at hw
    injection hw with he
    subst he
    exact hones w cw1 h1

lemma wpLoop_all_colored (G : Graph) :
    ∀ (l : List Nat) (cc : Nat) (cm : ColorMap), (∀ v ∈ l, findC cm v ≠ none) →
      wpLoop G l cc cm = cm := by
  intro l
  induction l with
  | nil => intro cc cm _; rfl
  | cons v t ih =>
    intro cc cm h
    simp only [wpLoop]
    rw [if_neg (h v (List.mem_cons_self _ _))]
    exact ih cc cm (fun w hw => h w (List.mem_cons_of_mem _ hw))

lemma welsh_powell_edgeless (G : Graph) (hE : G.edges = []) :
    ∀ v ∈ G.nodes, findC (welsh_powell G) v = some 1 := by
  intro v hv
  rcases hsort : sortedNodes G with _ | ⟨v1, rest⟩
  · have hmem := mem_sortedNodes.mpr hv
    rw [hsort] at hmem
    cases hmem
  · rw [welsh_powell, hsort]
    simp only [wpLoop]
    rw [if_pos (show findC [] v1 = none from rfl)]
    have htotal : ∀ u ∈ G.nodes, findC (wpOpen G 0 v1 []) u ≠ none := by
      intro u hu
      exact wpExtend_total_edgeless G hE 1 G.nodes ([] ++ [(v1, 1)]) u hu
    have hones : ∀ w cw, findC (wpOpen G 0 v1 []) w = some cw → cw = 1 := by
      apply wpExtend_ones
      intro w cw hw
      rw [List.nil_append, findC_single] at hw
      by_cases h1 : v1 = w
      · rw [if_pos h1] at hw
        injection hw with hw
        exact hw.symm
      · rw [if_neg h1] at hw
        exact Option.noConfusion hw
    have hrest : ∀ w ∈ rest, findC (wpOpen G 0 v1 []) w ≠ none := by
      intro w hw
      apply htotal w
      apply mem_sortedNodes.mp
      rw [hsort]
      exact List.mem_cons_of_mem _ hw
    rw [wpLoop_all_colored G rest 1 _ hrest]
    rcases h : findC (wpOpen G 0 v1 []) v with _ | cv
    · exact absurd h (htotal v hv)
    · exact congrArg some (hones v cv h)

lemma dsaturRun_ones (G : Graph) (hE : G.edges = []) :
    ∀ k, ∀ w cw, findC (dsaturRun G k).cm w = some cw → cw = 1 := by
  intro k
  induction k with
  | zero =>
    intro w cw hw
    rw [show (dsaturRun G 0).cm = [] from rfl] at hw
    exact Option.noConfusion hw
  | succ k ih =>
    intro w cw hw
    rcases hstep : dsaturStep G (dsaturRun G k) with _ | s2
    · rw [show dsaturRun G (k + 1) = dsaturRun G k from by simp [dsaturRun, hstep]] at hw
      exact ih w cw hw
    · rw [show dsaturRun G (k + 1) = s2 from by simp [dsaturRun, hstep]] at hw
      rcases hch : dsaturChoose G (dsaturRun G k) with _ | v
      · simp only [dsaturStep, hch] at hstep
        exact Option.noConfusion hstep
      · simp only [dsaturStep, hch] at hstep
        injection hstep with hstep
        subst hstep
        dsimp only at hw
        have hnbc : nbrColors G (dsaturRun G k).cm v = [] := by
          rw [nbrColors, nbrs_of_edgeless hE]
          rfl
        rw [hnbc] at hw
        rcases h1 : findC (dsaturRun G k).cm w with _ | cw1
        · rw [findC_append_of_none h1, findC_single] at hw
          by_cases h2 : v = w
          · rw [if_pos h2] at hw
            injection hw with hw
            rw [← hw]
            rfl
          · rw [if_neg h2] at hw
            exact Option.noConfusion hw
        · rw [findC_append_of_some h1] at hw
          injection hw with he
          subst he
          exact ih w cw1 h1

/- ---------------------------------------------------------------------
   The maximum degree bounds every degree.
--------------------------------------------------------------------- -/

lemma foldl_max_le_init : ∀ (l : List Nat) (a : Nat), a ≤ l.foldl max a := by
  intro l
  induction l with
  | nil => intro a; simp
  | cons x t ih =>
    intro a
    rw [List.foldl_cons]
    exact le_trans (le_max_left a x) (ih (max a x))

lemma le_foldl_max : ∀ (l : List Nat) (a x : Nat), x ∈ l → x ≤ l.foldl max a := by
  intro l
  induction l with
  | nil => intro a x hx; cases hx
  | cons y t ih =>
    intro a x hx
    rw [List.foldl_cons]
    rcases List.mem_cons.mp hx with h | h
    · rw [h]
      exact le_trans (le_max_right a y) (foldl_max_le_init t (max a y))
    · exact ih (max a y) x h

lemma degree_le_maxDegree {G : Graph} {v : Nat} (hv : v ∈ G.nodes) :
    G.degree v ≤ maxDegree G :=
  le_foldl_max _ 0 _ (List.mem_map.mpr ⟨v, hv, rfl⟩)

/- ---------------------------------------------------------------------
   Concrete graphs used as witnesses and counterexamples.
--------------------------------------------------------------------- -/

/-- The 4-cycle 1-2-3-4-1 built by the example code in graph.py. -/
def Gcycle : Graph := ⟨[1, 2, 3, 4], [(1, 2), (2, 3), (3, 4), (4, 1)]⟩

/-- Two isolated vertices, no edges. -/
def Gedgeless : Graph := ⟨[7, 9], []⟩

/- ---------------------------------------------------------------------
   Claim theorems.
--------------------------------------------------------------------- -/

/-- C1: for every finite well-formed graph without self-loops, each of the
three coloring functions returns an assignment in which no two adjacent
vertices receive the same color. -/
theorem C1_coloring_validity (G : Graph) (hWF : G.WF) :
    Proper G (welsh_powell G) ∧ Proper G (greedy_coloring G) ∧ Proper G (dsatur G) := by
  have hP0 : Proper G [] := fun _ _ _ _ h => Option.noConfusion h
  have hB0 : ColorsLe G [] := fun _ _ h => Option.noConfusion h
  have hBB0 : BoundedBy [] 0 := fun _ _ h => Option.noConfusion h
  refine ⟨?_, ?_, ?_⟩
  · exact (wpLoop_master G hWF (sortedNodes G) 0 [] hP0 hBB0).1
  · exact (greedy_aux G hWF G.nodes [] hWF.1 (fun _ _ => rfl) hP0 hB0).1
  · exact (dsaturRun_inv G hWF G.nodes.length).1.1

theorem C1_coloring_validity_witness :
    Gcycle.WF ∧
    (Proper Gcycle (welsh_powell Gcycle) ∧ Proper Gcycle (greedy_coloring Gcycle) ∧
      Proper Gcycle (dsatur Gcycle)) :=
  ⟨by decide, C1_coloring_validity Gcycle (by decide)⟩

/-- C2: for every finite well-formed graph, the assignment returned by each
of welsh_powell, greedy_coloring and dsatur has key set exactly the graph's
vertex set. -/
theorem C2_totality (G : Graph) (hWF : G.WF) :
    (∀ v, v ∈ keysOf (welsh_powell G) ↔ v ∈ G.nodes) ∧
    (∀ v, v ∈ keysOf (greedy_coloring G) ↔ v ∈ G.nodes) ∧
    (∀ v, v ∈ keysOf (dsatur G) ↔ v ∈ G.nodes) := by
  have hP0 : Proper G [] := fun _ _ _ _ h => Option.noConfusion h
  have hB0 : ColorsLe G [] := fun _ _ h => Option.noConfusion h
  have hBB0 : BoundedBy [] 0 := fun _ _ h => Option.noConfusion h
  refine ⟨?_, ?_, ?_⟩
  · intro v
    constructor
    · intro hv
      obtain ⟨r, hr, hall⟩ := wpLoop_append G (sortedNodes G) 0 []
      simp only [welsh_powell] at hv
      rw [hr, List.nil_append] at hv
      obtain ⟨p, hp, hpv⟩ := List.mem_map.mp hv
      rcases hall p hp with h | h
      · exact hpv ▸ mem_sortedNodes.mp h
      · exact hpv ▸ h
    · intro hv
      have h2 := (wpLoop_master G hWF (sortedNodes G) 0 [] hP0 hBB0).2 v
        (mem_sortedNodes.mpr hv)
      by_contra hk
      exact h2 (findC_eq_none_iff.mpr hk)
  · intro v
    have hk := (greedy_aux G hWF G.nodes [] hWF.1 (fun _ _ => rfl) hP0 hB0).2.2.1
    rw [greedy_coloring, hk]
    simp [keysOf]
  · intro v
    constructor
    · intro hv
      exact (dsaturRun_inv G hWF G.nodes.length).1.2.2.2.1 v hv
    · intro hv
      by_contra hk
      exact dsatur_total G hWF v hv (findC_eq_none_iff.mpr hk)

theorem C2_totality_witness :
    Gcycle.WF ∧
    ((∀ v, v ∈ keysOf (welsh_powell Gcycle) ↔ v ∈ Gcycle.nodes) ∧
     (∀ v, v ∈ keysOf (greedy_coloring Gcycle) ↔ v ∈ Gcycle.nodes) ∧
     (∀ v, v ∈ keysOf (dsatur Gcycle) ↔ v ∈ Gcycle.nodes)) :=
  ⟨by decide, C2_totality Gcycle (by decide)⟩

/-- Graph on which the two Welsh-Powell scan orders disagree. -/
def Gscan : Graph := ⟨[1, 2, 3, 4, 5, 6], [(3, 5), (3, 6), (3, 4), (1, 2), (2, 4)]⟩

/-- C3 counterexample: the source's extension pass scans `graph.nodes`
(insertion order); scanning the descending-degree sort order instead, as the
claim states, yields a different coloring on `Gscan`. -/
theorem C3_counterexample : welsh_powell Gscan ≠ welshPowellSortScan Gscan := by
  decide

/-- C3 amended: after a new color is opened, the extension pass scans all
vertices in the graph's native insertion order (`graph.nodes`), assigning
the new color to every currently-uncolored vertex none of whose neighbors
already holds it. -/
theorem C3_amended_scan_order (G : Graph) :
    welsh_powell G = wpLoopScan G G.nodes (sortedNodes G) 0 [] :=
  wpLoop_eq_scan G (sortedNodes G) 0 []

/-- C4: greedy_coloring processes vertices in the graph's native iteration
order and gives each vertex the smallest positive color not used by its
already-colored (earlier) neighbors. -/
theorem C4_greedy_smallest (G : Graph) (hWF : G.WF) (pre post : List Nat) (v : Nat)
    (hsplit : G.nodes = pre ++ v :: post) :
    ∃ c, findC (greedy_coloring G) v = some c ∧ 1 ≤ c ∧
      c ∉ (G.nbrs v).filterMap
          (fun u => if u ∈ pre then findC (greedy_coloring G) u else none) ∧
      ∀ d, 1 ≤ d → d < c →
        d ∈ (G.nbrs v).filterMap
          (fun u => if u ∈ pre then findC (greedy_coloring G) u else none) := by
  have hnd : (pre ++ v :: post).Nodup := hsplit ▸ hWF.1
  obtain ⟨hndpre, hndpost, hdisj⟩ := List.nodup_append.mp hnd
  have hvpre : v ∉ pre := fun hv => hdisj hv (List.mem_cons_self _ _)
  obtain ⟨rpre, hrpre, hkpre⟩ := greedy_fold_append G pre []
  have hkeysPre : keysOf (pre.foldl (greedyStep G) []) = pre := by
    rw [hrpre, List.nil_append, hkpre]
  have hvnone : findC (pre.foldl (greedyStep G) []) v = none :=
    findC_eq_none_iff.mpr (by rw [hkeysPre]; exact hvpre)
  have hgreedy : greedy_coloring G =
      post.foldl (greedyStep G)
        ((pre.foldl (greedyStep G) []) ++
          [(v, firstFree (nbrColors G (pre.foldl (greedyStep G) []) v))]) := by
    rw [greedy_coloring, hsplit, List.foldl_append, List.foldl_cons]
    rfl
  have hvfinal : findC (greedy_coloring G) v
      = some (firstFree (nbrColors G (pre.foldl (greedyStep G) []) v)) := by
    rw [hgreedy]
    exact greedy_fold_stable (findC_append_insert_self hvnone)
  have hENC : (G.nbrs v).filterMap
        (fun u => if u ∈ pre then findC (greedy_coloring G) u else none)
      = nbrColors G (pre.foldl (greedyStep G) []) v := by
    rw [nbrColors]
    apply List.filterMap_congr
    intro u _
    by_cases hupre : u ∈ pre
    · rw [if_pos hupre]
      have hukey : u ∈ keysOf (pre.foldl (greedyStep G) []) := by
        rw [hkeysPre]
        exact hupre
      obtain ⟨cu, hcu⟩ := findC_isSome_iff.mpr hukey
      rw [hcu, hgreedy]
      exact greedy_fold_stable (findC_append_of_some hcu)
    · rw [if_neg hupre]
      rw [findC_eq_none_iff.mpr (by rw [hkeysPre]; exact hupre)]
  refine ⟨firstFree (nbrColors G (pre.foldl (greedyStep G) []) v),
    hvfinal, firstFree_pos _, ?_, ?_⟩
  · rw [hENC]
    exact firstFree_not_mem _
  · intro d h1 h2
    rw [hENC]
    exact firstFree_min h1 h2

theorem C4_greedy_smallest_witness :
    (Gcycle.WF ∧ Gcycle.nodes = [1] ++ 2 :: [3, 4]) ∧
    (∃ c, findC (greedy_coloring Gcycle) 2 = some c ∧ 1 ≤ c ∧
      c ∉ (Gcycle.nbrs 2).filterMap
          (fun u => if u ∈ [1] then findC (greedy_coloring Gcycle) u else none) ∧
      ∀ d, 1 ≤ d → d < c →
        d ∈ (Gcycle.nbrs 2).filterMap
          (fun u => if u ∈ [1] then findC (greedy_coloring Gcycle) u else none)) :=
  ⟨⟨by decide, rfl⟩, C4_greedy_smallest Gcycle (by decide) [1] [3, 4] 2 rfl⟩

/-- C5: whenever dsatur's while-loop selects a vertex, that vertex is an
uncolored vertex maximizing (saturation, degree) lexicographically over all
uncolored vertices, and in the next state it holds the smallest positive
color not used by its already-colored neighbors. -/
theorem C5_dsatur_selection (G : Graph) (k v : Nat)
    (hv : dsaturChoose G (dsaturRun G k) = some v) :
    (v ∈ G.nodes ∧ findC (dsaturRun G k).cm v = none) ∧
    (∀ u ∈ G.nodes, findC (dsaturRun G k).cm u = none →
      ¬ lexLt ((dsaturRun G k).sat v, G.degree v) ((dsaturRun G k).sat u, G.degree u)) ∧
    findC (dsaturRun G (k + 1)).cm v
      = some (firstFree (nbrColors G (dsaturRun G k).cm v)) ∧
    1 ≤ firstFree (nbrColors G (dsaturRun G k).cm v) ∧
    firstFree (nbrColors G (dsaturRun G k).cm v) ∉ nbrColors G (dsaturRun G k).cm v ∧
    ∀ d, 1 ≤ d → d < firstFree (nbrColors G (dsaturRun G k).cm v) →
      d ∈ nbrColors G (dsaturRun G k).cm v := by
  have hch := hv
  rw [dsaturChoose] at hch
  obtain ⟨hmem, hmax⟩ := pickMax_spec hch
  obtain ⟨hvnode, hvnone⟩ := mem_uncoloredIn.mp hmem
  have hstep : dsaturStep G (dsaturRun G k) = some
      ⟨dsaturUpdate G v
          ((dsaturRun G k).cm ++ [(v, firstFree (nbrColors G (dsaturRun G k).cm v))])
          (dsaturRun G k).sat,
        (dsaturRun G k).cm ++ [(v, firstFree (nbrColors G (dsaturRun G k).cm v))]⟩ := by
    simp only [dsaturStep, hv]
  have hrun : (dsaturRun G (k + 1)).cm
      = (dsaturRun G k).cm ++ [(v, firstFree (nbrColors G (dsaturRun G k).cm v))] := by
    show (match dsaturStep G (dsaturRun G k) with
          | none => dsaturRun G k
          | some s => s).cm = _
    rw [hstep]
  refine ⟨⟨hvnode, hvnone⟩, ?_, ?_, firstFree_pos _, firstFree_not_mem _, ?_⟩
  · intro u hu hun
    exact hmax u (mem_uncoloredIn.mpr ⟨hu, hun⟩)
  · rw [hrun]
    exact findC_append_insert_self hvnone
  · intro d h1 h2
    exact firstFree_min h1 h2

theorem C5_dsatur_selection_witness :
    dsaturChoose Gcycle (dsaturRun Gcycle 0) = some 1 ∧
    ((1 ∈ Gcycle.nodes ∧ findC (dsaturRun Gcycle 0).cm 1 = none) ∧
     (∀ u ∈ Gcycle.nodes, findC (dsaturRun Gcycle 0).cm u = none →
       ¬ lexLt ((dsaturRun Gcycle 0).sat 1, Gcycle.degree 1)
         ((dsaturRun Gcycle 0).sat u, Gcycle.degree u)) ∧
     findC (dsaturRun Gcycle 1).cm 1
       = some (firstFree (nbrColors Gcycle (dsaturRun Gcycle 0).cm 1)) ∧
     1 ≤ firstFree (nbrColors Gcycle (dsaturRun Gcycle 0).cm 1) ∧
     firstFree (nbrColors Gcycle (dsaturRun Gcycle 0).cm 1)
       ∉ nbrColors Gcycle (dsaturRun Gcycle 0).cm 1 ∧
     ∀ d, 1 ≤ d → d < firstFree (nbrColors Gcycle (dsaturRun Gcycle 0).cm 1) →
       d ∈ nbrColors Gcycle (dsaturRun Gcycle 0).cm 1) :=
  ⟨by decide, C5_dsatur_selection Gcycle 0 1 (by decide)⟩

/-- The 4-cycle 1-4-3-2-1 listed in the order that makes dsatur color the two
neighbors of vertex 4 with the same color while 4 is still uncolored. -/
def Gsat : Graph := ⟨[1, 2, 3, 4], [(1, 4), (1, 2), (2, 3), (3, 4)]⟩

/-- C6 counterexample: after three dsatur iterations on `Gsat`, vertex 4 is
still uncolored, its saturation counter is 2, but only one distinct color
appears among its colored neighbors — the counter is not the number of
distinct neighbor colors. -/
theorem C6_counterexample :
    findC (dsaturRun Gsat 3).cm 4 = none ∧
    (dsaturRun Gsat 3).sat 4 = 2 ∧
    distinctNbrColors Gsat (dsaturRun Gsat 3).cm 4 = 1 ∧
    (dsaturRun Gsat 3).sat 4 ≠ distinctNbrColors Gsat (dsaturRun Gsat 3).cm 4 := by
  decide

/-- C6 amended: throughout the execution of dsatur, for every still-uncolored
vertex v, saturation[v] equals the number of already-colored neighbors of v
(the reference increments once per newly-colored neighbor). -/
theorem C6_amended_saturation_count (G : Graph) (hWF : G.WF) (k : Nat) :
    ∀ v ∈ G.nodes, findC (dsaturRun G k).cm v = none →
      (dsaturRun G k).sat v = coloredNbrCount G (dsaturRun G k).cm v :=
  (dsaturRun_inv G hWF k).1.2.2.2.2

theorem C6_amended_saturation_count_witness :
    Gsat.WF ∧
    (∀ v ∈ Gsat.nodes, findC (dsaturRun Gsat 3).cm v = none →
      (dsaturRun Gsat 3).sat v = coloredNbrCount Gsat (dsaturRun Gsat 3).cm v) :=
  ⟨by decide, C6_amended_saturation_count Gsat (by decide) 3⟩

/-- The graph with the single edge (1, 2), the smallest round-trip input. -/
def Gpair : Graph := ⟨[1, 2], [(1, 2)]⟩

/-- C7: the round trip fails.  `write_graph_to_file` emits the marker-less
line "1 2", but `read_graph_from_file` only builds edges from lines starting
with "e", so re-loading the exported file yields the empty graph instead of
a graph with the same vertex and edge sets. -/
theorem C7_roundtrip_fails :
    write_graph_to_file Gpair = [['1', ' ', '2']] ∧
    read_graph_from_file (write_graph_to_file Gpair) = Graph.mk [] [] ∧
    Gpair.nodes ≠ [] ∧ Gpair.edges ≠ [] ∧
    read_graph_from_file [['e', ' ', '1', ' ', '2']] = Gpair := by
  refine ⟨by decide, by decide, by decide, by decide, by decide⟩

/-- C8: on the empty graph all three algorithms return the empty assignment;
on a non-empty well-formed graph with no edges every vertex gets color 1. -/
theorem C8_empty_and_edgeless (G : Graph) (hWF : G.WF) (hE : G.edges = []) :
    welsh_powell ⟨[], []⟩ = [] ∧ greedy_coloring ⟨[], []⟩ = [] ∧ dsatur ⟨[], []⟩ = [] ∧
    ∀ v ∈ G.nodes,
      findC (welsh_powell G) v = some 1 ∧
      findC (greedy_coloring G) v = some 1 ∧
      findC (dsatur G) v = some 1 := by
  refine ⟨rfl, rfl, rfl, ?_⟩
  intro v hv
  refine ⟨welsh_powell_edgeless G hE v hv, ?_, ?_⟩
  · rw [greedy_coloring, greedy_fold_edgeless G hE, List.nil_append]
    exact findC_map_one G.nodes v hv
  · rcases h : findC (dsatur G) v with _ | cv
    · exact absurd h (dsatur_total G hWF v hv)
    · have hcv : cv = 1 := by
        apply dsaturRun_ones G hE G.nodes.length v cv
        simp only [dsatur] at h
        exact h
      rw [hcv]

theorem C8_empty_and_edgeless_witness :
    (Gedgeless.WF ∧ Gedgeless.edges = []) ∧
    (welsh_powell ⟨[], []⟩ = [] ∧ greedy_coloring ⟨[], []⟩ = [] ∧ dsatur ⟨[], []⟩ = [] ∧
      ∀ v ∈ Gedgeless.nodes,
        findC (welsh_powell Gedgeless) v = some 1 ∧
        findC (greedy_coloring Gedgeless) v = some 1 ∧
        findC (dsatur Gedgeless) v = some 1) :=
  ⟨⟨by decide, rfl⟩, C8_empty_and_edgeless Gedgeless (by decide) rfl⟩

/-- C9: each coloring function is deterministic: its output is a function of
the graph data alone (node iteration order and edge list), so two runs on
the same graph agree. -/
theorem C9_determinism (G1 G2 : Graph) (hn : G1.nodes = G2.nodes)
    (he : G1.edges = G2.edges) :
    welsh_powell G1 = welsh_powell G2 ∧ greedy_coloring G1 = greedy_coloring G2 ∧
    dsatur G1 = dsatur G2 := by
  obtain ⟨n1, e1⟩ := G1
  obtain ⟨n2, e2⟩ := G2
  dsimp only at hn he
  subst hn
  subst he
  exact ⟨rfl, rfl, rfl⟩

theorem C9_determinism_witness :
    (Gcycle.nodes = Gcycle.nodes ∧ Gcycle.edges = Gcycle.edges) ∧
    (welsh_powell Gcycle = welsh_powell Gcycle ∧
      greedy_coloring Gcycle = greedy_coloring Gcycle ∧
      dsatur Gcycle = dsatur Gcycle) :=
  ⟨⟨rfl, rfl⟩, C9_determinism Gcycle Gcycle rfl rfl⟩

/-- C10: for every well-formed graph without self-loops, the color that
greedy_coloring or dsatur assigns to a vertex v is at most degree(v) + 1,
and hence every color either algorithm uses is at most the maximum degree
plus one. -/
theorem C10_degree_bound (G : Graph) (hWF : G.WF) :
    (∀ v c, findC (greedy_coloring G) v = some c → c ≤ G.degree v + 1) ∧
    (∀ v c, findC (dsatur G) v = some c → c ≤ G.degree v + 1) ∧
    (∀ v c, findC (greedy_coloring G) v = some c → c ≤ maxDegree G + 1) ∧
    (∀ v c, findC (dsatur G) v = some c → c ≤ maxDegree G + 1) := by
  have hP0 : Proper G [] := fun _ _ _ _ h => Option.noConfusion h
  have hB0 : ColorsLe G [] := fun _ _ h => Option.noConfusion h
  have hg := greedy_aux G hWF G.nodes [] hWF.1 (fun _ _ => rfl) hP0 hB0
  have hgB : ColorsLe G (greedy_coloring G) := hg.2.1
  have hd := (dsaturRun_inv G hWF G.nodes.length).1
  have hdB : ColorsLe G (dsatur G) := hd.2.1
  have hdSub : ∀ x ∈ keysOf (dsatur G), x ∈ G.nodes := hd.2.2.2.1
  refine ⟨hgB, hdB, ?_, ?_⟩
  · intro v c h
    have h1 : c ≤ G.degree v + 1 := hgB v c h
    have hvk : v ∈ keysOf (greedy_coloring G) := findC_isSome_iff.mp ⟨c, h⟩
    have hvn : v ∈ G.nodes := by
      have hk := hg.2.2.1
      rw [greedy_coloring, hk] at hvk
      simpa [keysOf] using hvk
    have h2 := degree_le_maxDegree hvn
    omega
  · intro v c h
    have h1 : c ≤ G.degree v + 1 := hdB v c h
    have hvn : v ∈ G.nodes := hdSub v (findC_isSome_iff.mp ⟨c, h⟩)
    have h2 := degree_le_maxDegree hvn
    omega

theorem C10_degree_bound_witness :
    Gcycle.WF ∧
    ((∀ v c, findC (greedy_coloring Gcycle) v = some c → c ≤ Gcycle.degree v + 1) ∧
     (∀ v c, findC (dsatur Gcycle) v = some c → c ≤ Gcycle.degree v + 1) ∧
     (∀ v c, findC (greedy_coloring Gcycle) v = some c → c ≤ maxDegree Gcycle + 1) ∧
     (∀ v c, findC (dsatur Gcycle) v = some c → c ≤ maxDegree Gcycle + 1)) :=
  ⟨by decide, C10_degree_bound Gcycle (by decide)⟩
